import Mathlib

/-!
Shallow embedding of the `trial-cpp` repository's core data model:

* `value::Value255` / `value::MutableValue255`
  (src/components/value/value255.cpp, src/components/value/include/value255.hpp)
* `machine::property::Format` (src/components/machine/property/format_impl.cpp)
* `machine::property::Resolution` (src/components/machine/property/resolution_impl.cpp)
* `machine::property::Spec` (src/components/machine/property/spec.cpp)

Machine bytes (`std::byte`, `std::uint8_t`) are modelled as `Nat` together
with explicit bounds (`< 256`, `≤ 255`) carried by a well-formedness
predicate; the `int32_t` accumulator of the numeric decode is modelled as
`Int` with an explicit two's-complement reinterpretation `toInt32`.

Heap storage: the C++ code stores the address of an exclusively owned heap
allocation as raw bytes inside the 4-byte inline buffer.  The embedding
carries the *contents* of that allocation directly (`heapBlock`), which is
what every dereference of the stored pointer reads or writes; the numeric
pointer value itself never influences observable behaviour.  `heapBlock`
is `[]` exactly when no allocation is owned.  The length of `heapBlock`
models the allocated capacity of the block.

Allocation (`heap_caps_malloc`) may fail; each operation that can allocate
takes an explicit `allocOk : Bool` oracle telling whether the allocation
it performs (if any) succeeds.  A fresh allocation of `n` bytes is a block
of `n` bytes with unspecified contents, modelled as `List.replicate n 0`;
every byte the program subsequently reads from it has been written first.

The per-instance spin lock only serialises access and has no effect on the
sequential semantics embedded here; the pointer-identity short-circuits
(`this == &other`) are dropped because identical states yield the same
results through the general path (proved below).
-/

namespace TrialCpp

/-- Embeds `INLINE_SIZE` from value255.hpp: payloads of at most 4 bytes are stored
inline in `raw_data_`. -/
def INLINE_SIZE : ℕ := 4

/-- State of a `value::Value255` instance.  `size_` is the recorded payload
size (a `std::uint8_t`), `raw_data_` the 4-byte inline buffer, and
`heapBlock` the contents of the owned heap allocation (see the module
docstring); `heapBlock = []` when no allocation is owned. -/
structure Value255 where
  size_ : ℕ
  raw_data_ : List ℕ
  heapBlock : List ℕ
deriving Repr, DecidableEq

namespace Value255

/-- Embeds `Value255::isHeapAllocated`: `size_ > INLINE_SIZE`. -/
def isHeapAllocated (v : Value255) : Bool := decide (INLINE_SIZE < v.size_)

/-- Embeds `Value255::data_unlocked`: the buffer the payload lives in — the heap
block when heap-allocated, the inline buffer otherwise. -/
def data_unlocked (v : Value255) : List ℕ :=
  if v.isHeapAllocated then v.heapBlock else v.raw_data_

/-- Embeds `Value255::size()`. -/
def size (v : Value255) : ℕ := v.size_

/-- Embeds `Value255::bytes()`: copies `size_` bytes out of the payload buffer. -/
def bytes (v : Value255) : List ℕ := v.data_unlocked.take v.size_

/-- The state produced by the default constructor: size 0, zeroed inline
buffer, no heap allocation. -/
def empty : Value255 := ⟨0, List.replicate INLINE_SIZE 0, []⟩

/-- Embeds `Value255::cleanup()`: frees any heap allocation, zeroes the inline
buffer and resets the size to 0.  (When `size_ ≤ 4` no allocation is owned
and the free is skipped; either way the resulting state is `empty`.) -/
def cleanup (_v : Value255) : Value255 := empty

/-- Embeds `std::memcpy(block, src, src.length)`: overwrite the first
`src.length` bytes of `block` with `src`, keeping the rest. -/
def memWrite (block src : List ℕ) : List ℕ := src ++ block.drop src.length

/-- Embeds `Value255::set(data, size)` (value255.cpp lines 184–229).  `data` is
the source pointer (`none` = `nullptr`, `some l` = a readable buffer of
bytes `l`); exactly `size` bytes are read from it, i.e. `l.take size`.
`allocOk` tells whether the `heap_caps_malloc` call performed on the
allocate/reallocate path succeeds.  Returns the C++ `bool` result paired
with the post-state. -/
def set (v : Value255) (data : Option (List ℕ)) (sz : ℕ) (allocOk : Bool) :
    Bool × Value255 :=
  if 0 < sz ∧ data = none then
    (false, v.cleanup)
  else if sz ≤ INLINE_SIZE then
    -- inline storage: cleanup, then memcpy `sz` bytes into the inline buffer
    let v₁ := v.cleanup
    (true, { v₁ with
              size_ := sz
              raw_data_ := memWrite v₁.raw_data_ ((data.getD []).take sz) })
  else if v.size_ < sz then
    -- allocate or reallocate: cleanup, malloc a block of exactly `sz` bytes,
    -- store its address in the inline buffer, then memcpy into the block
    let v₁ := v.cleanup
    if allocOk then
      (true, { v₁ with
                size_ := sz
                heapBlock := memWrite (List.replicate sz 0) ((data.getD []).take sz) })
    else
      (false, v₁)
  else
    -- reuse the existing block: memcpy `sz` bytes into it, record new size
    (true, { v with
              size_ := sz
              heapBlock := memWrite v.heapBlock ((data.getD []).take sz) })

/-- Embeds `Value255::create(data, size)` (value255.cpp lines 24–38): run `set` on
a default-constructed instance; return it on success, nothing on failure
(the partially built temporary is destroyed). -/
def create (data : Option (List ℕ)) (sz : ℕ) (allocOk : Bool) : Option Value255 :=
  let r := Value255.set empty data sz allocOk
  if r.1 then some r.2 else none

/-- Embeds `Value255::clone()` (value255.hpp lines 317–329): read the current
payload buffer and size under the lock and delegate to `create`. -/
def clone (v : Value255) (allocOk : Bool) : Option Value255 :=
  create (some v.data_unlocked) v.size_ allocOk

/-- Embeds `Value255::operator==` (value255.cpp lines 77–95), without the
pointer-identity shortcut (identical states agree with the general path). -/
def beq (a b : Value255) : Bool :=
  if a.size_ ≠ b.size_ then false
  else if a.size_ = 0 then true
  else decide (a.data_unlocked.take a.size_ = b.data_unlocked.take a.size_)

/-- Embeds `std::compare_three_way` on two bytes. -/
def byteCmp (a b : ℕ) : Ordering :=
  if a < b then .lt else if b < a then .gt else .eq

/-- Embeds `std::lexicographical_compare_three_way` over byte ranges. -/
def lexCmp : List ℕ → List ℕ → Ordering
  | [], [] => .eq
  | [], _ :: _ => .lt
  | _ :: _, [] => .gt
  | a :: as, b :: bs =>
    match byteCmp a b with
    | .eq => lexCmp as bs
    | o => o

/-- Embeds `Value255::operator<=>` (value255.cpp lines 97–121), without the
pointer-identity shortcut: size first, then lexicographic bytes. -/
def cmp (a b : Value255) : Ordering :=
  if a.size_ < b.size_ then .lt
  else if b.size_ < a.size_ then .gt
  else if a.size_ = 0 then .eq
  else lexCmp (a.data_unlocked.take a.size_) (b.data_unlocked.take b.size_)

/-- One hexadecimal digit as printed by `std::format` with `X`
(uppercase). -/
def hexDigit (n : ℕ) : Char :=
  if n < 10 then Char.ofNat (48 + n) else Char.ofNat (55 + n)

/-- Embeds the byte rendering of the loop body, the std::format call
with specifier 02X on a byte `b < 256`: `0x` followed by exactly two
uppercase hex digits. -/
def byteHex (b : ℕ) : String :=
  "0x" ++ String.mk [hexDigit (b / 16), hexDigit (b % 16)]

/-- The rendering loop of `Value255::str()`: each byte in hex, separated by
single spaces (a space is appended after a byte only when another byte
follows). -/
def strBody : List ℕ → String
  | [] => ""
  | [b] => byteHex b
  | b :: rest => byteHex b ++ " " ++ strBody rest

/-- Embeds `Value255::str()` (value255.cpp lines 156–176): `"[ "`, then the
space-separated hex bytes, then `" ]"`. -/
def str (v : Value255) : String := "[ " ++ strBody v.bytes ++ " ]"

/-- Heap-capacity invariant: whenever the value is heap-backed
(`size_ > INLINE_SIZE`), the owned block's allocated capacity is at least
the recorded size. -/
def HeapInv (v : Value255) : Prop :=
  INLINE_SIZE < v.size_ → v.size_ ≤ v.heapBlock.length

/-- Well-formed `Value255` state: the inline buffer is exactly
`INLINE_SIZE` bytes, the size fits `std::uint8_t`, the heap capacity
invariant holds, the heap block is absent in the inline regime, and every
stored byte is a byte. -/
def WF (v : Value255) : Prop :=
  v.raw_data_.length = INLINE_SIZE ∧
  v.size_ ≤ 255 ∧
  HeapInv v ∧
  (v.size_ ≤ INLINE_SIZE → v.heapBlock = []) ∧
  (∀ b ∈ v.raw_data_, b < 256) ∧
  (∀ b ∈ v.heapBlock, b < 256)

instance (v : Value255) : Decidable (HeapInv v) := by
  unfold HeapInv; infer_instance

instance (v : Value255) : Decidable (WF v) := by
  unfold WF; infer_instance

/-- A sequence of `set` calls applied in order; each entry carries the data
pointer, the requested size, and the allocation oracle for that call. -/
def setSeq (v : Value255) (ops : List (Option (List ℕ) × ℕ × Bool)) : Value255 :=
  ops.foldl (fun acc op => (acc.set op.1 op.2.1 op.2.2).2) v

end Value255

/-! ## `machine::property::Format` (format_impl.cpp / format_impl.hpp) -/

namespace Format

/-- Embeds `Format::Kind` (2-bit enum): `Numeric = 0`, `Boolean = 1`,
`BitSet = 2`, `String = 3`. -/
inductive Kind where
  | Numeric
  | Boolean
  | BitSet
  | String
deriving Repr, DecidableEq

/-- The `std::uint8_t` raw value of a `Format::Kind`. -/
def Kind.toRaw : Kind → ℕ
  | .Numeric => 0
  | .Boolean => 1
  | .BitSet => 2
  | .String => 3

/-- Embeds `FORMAT_KIND_MASK = (1 << 2) - 1`. -/
def FORMAT_KIND_MASK : ℕ := (1 <<< 2) - 1

/-- Embeds `Format::fromRaw`: mask the raw byte to its low 2 bits and cast. -/
def fromRaw (raw : ℕ) : Kind :=
  match raw &&& FORMAT_KIND_MASK with
  | 0 => .Numeric
  | 1 => .Boolean
  | 2 => .BitSet
  | _ => .String

/-- Embeds `BOOL_MIN` / `BOOL_MAX` from format_impl.cpp via `MIN_BOOL_VALUE` /
`MAX_BOOL_VALUE` (format_impl.hpp). -/
def BOOL_MIN : ℕ := 0x00

def BOOL_MAX : ℕ := 0x01

/-- Embeds `Format::fromValueRange(min, max)` (format_impl.cpp lines 15–37):
derive the format from the sizes and leading bytes of the bounds.
`bytes().at(0)` is modelled by `List.headD _ 0`; it is only reached when
the size is 1, in which case `bytes` is non-empty for well-formed values. -/
def fromValueRange (min max : Value255) : Kind :=
  let min_size := min.size
  let max_size := max.size
  if min_size = 0 ∧ max_size = 0 then
    .String
  else if min_size = 0 ∧ max_size ≠ 0 then
    .BitSet
  else if min_size = 1 ∧ min.bytes.headD 0 = BOOL_MIN ∧
          max_size = 1 ∧ max.bytes.headD 0 = BOOL_MAX then
    .Boolean
  else
    .Numeric

end Format

/-! ## `machine::property::Resolution`
(resolution_impl.cpp / resolution_impl.hpp).  `Kind` is a 3-bit enum with
raw values 0–7; the embedding works directly on the raw value. -/

namespace Resolution

/-- Embeds `RESOLUTION_KIND_MASK = (1 << 3) - 1`. -/
def RESOLUTION_KIND_MASK : ℕ := (1 <<< 3) - 1

/-- Embeds `RESOLUTION_KIND_NAMES` (resolution_impl.hpp lines 21–27). -/
def RESOLUTION_KIND_NAMES : List String :=
  ["x1", "x5", "x10", "x50", "x0.01", "x0.05", "x0.1", "x0.5"]

/-- Embeds `Resolution::fromRaw`: mask the raw byte to its low 3 bits. -/
def fromRaw (raw : ℕ) : ℕ := raw &&& RESOLUTION_KIND_MASK

/-- Embeds `Resolution::nameOf`: index into the name table, `"Unknown"` when out
of range. -/
def nameOf (v : ℕ) : String :=
  List.getD RESOLUTION_KIND_NAMES v ("Unknown")

/-- Reinterpret the low byte of a natural number as a signed
`std::int8_t` (two's complement). -/
def toInt8 (n : ℕ) : ℤ :=
  if n % 256 < 128 then (n % 256 : ℤ) else (n % 256 : ℤ) - 256

/-- Embeds `Resolution::shiftOf` (resolution_impl.cpp lines 42–60): extract bits
[2:1], left-shift into the top of a byte, reinterpret as `int8_t`, then
arithmetic right-shift by 6 (floor division by 64). -/
def shiftOf (v : ℕ) : ℤ :=
  let bit2_bit1 := (v >>> 1) &&& 3
  Int.fdiv (toInt8 (bit2_bit1 <<< 6)) 64

/-- Embeds `Resolution::coeffOf` (resolution_impl.cpp lines 62–67): 5 when bit 0
is set, 1 otherwise. -/
def coeffOf (v : ℕ) : ℕ :=
  if v &&& 1 ≠ 0 then 5 else 1

end Resolution

/-! ## `machine::property::Spec` (spec.cpp)

The class header of `machine::property::Spec` (declaring its `Fragments`
bit-field and the `format()` / `permission()` / `resolution()` accessors)
is not part of the sources; only spec.cpp, its formatter and older
revisions of the design are.  The control-byte layout is therefore
modelled from the spec (see `packFragments`); everything else below is
translated from spec.cpp. -/

/-- Size limits from format_impl.hpp, used by `Spec::isWithinRange`. -/
def BOOL_SIZE : ℕ := 1

def MAX_BITSET_SIZE : ℕ := 4

def MAX_NUMERIC_SIZE : ℕ := 4

def MAX_STRING_SIZE : ℕ := 192

/-- Embeds `BOOL_FALSE` / `BOOL_TRUE` byte constants of `Spec::isWithinRange`. -/
def BOOL_FALSE : ℕ := 0x00

def BOOL_TRUE : ℕ := 0x01

/-- Modelled from the spec: the `Fragments` bit-field declaration of
`machine::property::Spec`'s class header is missing from the sources.
Per spec.md §6, the control byte packs bits [1:0] = format,
[3:2] = permission, [6:4] = resolution, [7] = reserved (0); this matches
`Spec::create` (spec.cpp lines 77–90), which aggregate-initialises the
fragments in the order {format, permission, resolution, 0}, each field
masked to its declared width (2, 2, 3 and 1 bits). -/
def packFragments (format perm reso : ℕ) : ℕ :=
  (format &&& 3) + (perm &&& 3) * 4 + (reso &&& 7) * 16

/-- State of a `machine::property::Spec`: the packed control byte and the
three owned values. -/
structure Spec where
  frags : ℕ
  initVal : Value255
  minVal : Value255
  maxVal : Value255
deriving Repr, DecidableEq

namespace Spec

/-- Embeds `Spec::format()`: decode bits [1:0] of the control byte. -/
def format (s : Spec) : Format.Kind := Format.fromRaw (s.frags &&& 3)

/-- Embeds `Spec::permission()` raw value: bits [3:2] of the control byte. -/
def permission (s : Spec) : ℕ := (s.frags >>> 2) &&& 3

/-- Embeds `Spec::resolution()` raw value: bits [6:4] of the control byte. -/
def resolution (s : Spec) : ℕ := (s.frags >>> 4) &&& 7

/-- Embeds `Spec::create(permission, resolution, init, min, max)` on already
cloned optional values (spec.cpp lines 67–94): fails when any clone is
absent; otherwise derives the format from the bounds and packs the
control byte. -/
def createFromOptions (perm reso : ℕ)
    (init min max : Option Value255) : Option Spec :=
  match init, min, max with
  | some i, some mn, some mx =>
    some ⟨packFragments (Format.fromValueRange mn mx).toRaw perm reso, i, mn, mx⟩
  | _, _, _ => none

/-- Embeds `Spec::create` on value references (spec.cpp lines 50–65): clone all
three candidates (each clone may independently fail), then delegate. -/
def create (perm reso : ℕ) (init min max : Value255)
    (a₁ a₂ a₃ : Bool) : Option Spec :=
  createFromOptions perm reso (init.clone a₁) (min.clone a₂) (max.clone a₃)

/-- Embeds `Spec::decodeNumericValue` (spec.cpp lines 181–194): 0 for sizes 0 or
greater than 4; otherwise `memcpy` the 1–4 payload bytes over a
zero-initialised `int32_t` accumulator (little-endian), read back signed. -/
def leVal : List ℕ → ℕ
  | [] => 0
  | b :: rest => b + 256 * leVal rest

/-- Reinterpret the low 32 bits of a natural number as a signed
`std::int32_t` (two's complement). -/
def toInt32 (n : ℕ) : ℤ :=
  if n % 2 ^ 32 < 2 ^ 31 then (n % 2 ^ 32 : ℤ) else (n % 2 ^ 32 : ℤ) - 2 ^ 32

def decodeNumericValue (v : Value255) : ℤ :=
  if v.size_ = 0 ∨ MAX_NUMERIC_SIZE < v.size_ then 0
  else toInt32 (leVal v.bytes)

/-- Embeds `Spec::isWithinRange(v)` (spec.cpp lines 112–158). -/
def isWithinRange (s : Spec) (v : Value255) : Bool :=
  let size := v.size
  if size = 0 then
    false
  else
    let bytes := v.bytes
    match s.format with
    | .String => decide (size ≤ MAX_STRING_SIZE)
    | .BitSet => decide (size ≤ MAX_BITSET_SIZE)
    | .Boolean =>
      let is_valid_size := decide (size = BOOL_SIZE)
      let is_false_value := decide (bytes.headD 0 = BOOL_FALSE)
      let is_true_value := decide (bytes.headD 0 = BOOL_TRUE)
      is_valid_size && (is_false_value || is_true_value)
    | .Numeric =>
      if size ≤ MAX_NUMERIC_SIZE then
        let n := decodeNumericValue v
        let min := decodeNumericValue s.minVal
        let max := decodeNumericValue s.maxVal
        decide (min ≤ n) && decide (n ≤ max)
      else
        false

end Spec

/-! ## Supporting lemmas -/

namespace Value255

theorem memWrite_length (block src : List ℕ) :
    (memWrite block src).length = max src.length block.length := by
  simp [memWrite]
  omega

theorem take_memWrite (block src : List ℕ) :
    (memWrite block src).take src.length = src := by
  simp [memWrite, List.take_left']

theorem take_memWrite_of_length (block src : List ℕ) (n : ℕ)
    (h : src.length = n) : (memWrite block src).take n = src := by
  subst h
  exact take_memWrite block src

theorem bytes_mk (sz : ℕ) (raw heap : List ℕ) :
    bytes ⟨sz, raw, heap⟩ = if 4 < sz then heap.take sz else raw.take sz := by
  simp only [bytes, data_unlocked, isHeapAllocated, INLINE_SIZE, decide_eq_true_eq]
  split_ifs with h <;> rfl

theorem create_eq_some {data : Option (List ℕ)} {sz : ℕ} {allocOk : Bool}
    {v : Value255} (h : create data sz allocOk = some v) :
    (set empty data sz allocOk).1 = true ∧ v = (set empty data sz allocOk).2 := by
  simp only [create] at h
  split at h
  · exact ⟨by assumption, by simpa using h.symm⟩
  · exact absurd h (by simp)

theorem bytes_length_le (v : Value255) : v.bytes.length ≤ v.size_ := by
  simp [bytes]

theorem WF.bytes_lt (v : Value255) (h : WF v) : ∀ b ∈ v.bytes, b < 256 := by
  intro b hb
  have hsub : b ∈ v.data_unlocked := List.mem_of_mem_take hb
  unfold data_unlocked at hsub
  split at hsub
  · exact h.2.2.2.2.2 b hsub
  · exact h.2.2.2.2.1 b hsub

theorem WF.bytes_length (v : Value255) (h : WF v) : v.bytes.length = v.size_ := by
  have hraw := h.1
  have hheap := h.2.2.1
  simp only [bytes, data_unlocked, isHeapAllocated, INLINE_SIZE] at *
  split
  · next hgt =>
    simp only [decide_eq_true_eq] at hgt
    simp [List.length_take, hheap hgt]
  · next hle =>
    simp only [decide_eq_true_eq, not_lt] at hle
    simp [List.length_take, hraw]
    omega

theorem WF.data_length (v : Value255) (h : WF v) :
    v.size_ ≤ v.data_unlocked.length := by
  have hraw := h.1
  have hheap := h.2.2.1
  unfold data_unlocked isHeapAllocated HeapInv INLINE_SIZE at *
  split
  · next hgt =>
    simp only [decide_eq_true_eq] at hgt
    exact hheap hgt
  · next hle =>
    simp only [decide_eq_true_eq, not_lt] at hle
    omega

theorem set_invalid (v : Value255) (data : Option (List ℕ)) (sz : ℕ)
    (allocOk : Bool) (h₁ : 0 < sz) (h₂ : data = none) :
    v.set data sz allocOk = (false, empty) := by
  simp [set, cleanup, h₁, h₂]

theorem set_inline (v : Value255) (data : Option (List ℕ)) (sz : ℕ)
    (allocOk : Bool) (hsz : sz ≤ 4) (hdata : 0 < sz → data ≠ none) :
    v.set data sz allocOk =
      (true, ⟨sz, memWrite (List.replicate 4 0) ((data.getD []).take sz), []⟩) := by
  have hcond : ¬(0 < sz ∧ data = none) := by
    rintro ⟨h1, h2⟩; exact hdata h1 h2
  simp [set, cleanup, empty, INLINE_SIZE, hcond, hsz]

theorem set_alloc (v : Value255) (l : List ℕ) (sz : ℕ)
    (h4 : 4 < sz) (hgt : v.size_ < sz) :
    v.set (some l) sz true =
      (true, ⟨sz, List.replicate 4 0, memWrite (List.replicate sz 0) (l.take sz)⟩) := by
  simp [set, cleanup, empty, INLINE_SIZE, h4, hgt, Nat.not_le_of_lt h4]

theorem set_alloc_fail (v : Value255) (data : Option (List ℕ)) (sz : ℕ)
    (h4 : 4 < sz) (hgt : v.size_ < sz) :
    v.set data sz false = (false, empty) := by
  rcases data with _ | l
  · exact set_invalid v none sz false (by omega) rfl
  · simp [set, cleanup, empty, INLINE_SIZE, h4, hgt, Nat.not_le_of_lt h4]

theorem set_reuse (v : Value255) (l : List ℕ) (sz : ℕ) (allocOk : Bool)
    (h4 : 4 < sz) (hle : sz ≤ v.size_) :
    v.set (some l) sz allocOk =
      (true, ⟨sz, v.raw_data_, memWrite v.heapBlock (l.take sz)⟩) := by
  simp [set, cleanup, INLINE_SIZE, Nat.not_le_of_lt h4, Nat.not_lt_of_le hle]

theorem clone_eq_some (v w : Value255) (a : Bool) (hWF : v.WF)
    (h : v.clone a = some w) : w.size_ = v.size_ ∧ w.bytes = v.bytes := by
  have hdl := WF.data_length v hWF
  obtain ⟨hok, hw⟩ := create_eq_some h
  have hsrc : (v.data_unlocked.take v.size_).length = v.size_ := by
    simp only [List.length_take]
    omega
  by_cases h4 : v.size_ ≤ 4
  · rw [set_inline empty (some v.data_unlocked) v.size_ a h4 (by simp)] at hw
    subst hw
    refine ⟨rfl, ?_⟩
    rw [bytes_mk, if_neg (by omega)]
    show (memWrite (List.replicate 4 0) ((v.data_unlocked).take v.size_)).take v.size_
        = v.bytes
    rw [take_memWrite_of_length _ _ _ hsrc]
    rfl
  · push_neg at h4
    cases a with
    | false =>
      rw [set_alloc_fail empty (some v.data_unlocked) v.size_ h4
        (by simp [empty]; omega)] at hok
      simp at hok
    | true =>
      rw [set_alloc empty v.data_unlocked v.size_ h4 (by simp [empty]; omega)] at hw
      subst hw
      refine ⟨rfl, ?_⟩
      rw [bytes_mk, if_pos h4]
      show (memWrite (List.replicate v.size_ 0) ((v.data_unlocked).take v.size_)).take
          v.size_ = v.bytes
      rw [take_memWrite_of_length _ _ _ hsrc]
      rfl

end Value255

/-! ## Claim theorems -/

open Value255

/-- Claim C1: for every byte sequence `b` with `0 ≤ len(b) ≤ 255`, if
`Value255::create(b)` returns a value `v`, then `v.bytes()` returns exactly
`b` and `v.size()` equals `len(b)`, whether `b` is stored inline
(`len ≤ 4`) or in a heap block (`len > 4`). -/
theorem c1_create_roundtrip (b : List ℕ) (allocOk : Bool) (v : Value255)
    (hlen : b.length ≤ 255) (hbyte : ∀ x ∈ b, x < 256)
    (hc : Value255.create (some b) b.length allocOk = some v) :
    v.bytes = b ∧ v.size = b.length := by
  obtain ⟨hok, hv⟩ := create_eq_some hc
  by_cases h4 : b.length ≤ 4
  · rw [set_inline empty (some b) b.length allocOk h4 (by simp)] at hv
    subst hv
    constructor
    · rw [bytes_mk]
      simp only [if_neg (by omega : ¬ 4 < b.length)]
      have : (some b).getD [] = b := rfl
      rw [this, List.take_length]
      have := take_memWrite (List.replicate 4 0) b
      exact this
    · rfl
  · push_neg at h4
    cases allocOk with
    | false =>
      rw [set_alloc_fail empty (some b) b.length h4 (by simp [empty]; omega)] at hok
      simp at hok
    | true =>
      rw [set_alloc empty b b.length h4 (by simp [empty]; omega)] at hv
      subst hv
      constructor
      · rw [bytes_mk]
        simp only [if_pos h4]
        rw [List.take_length]
        exact take_memWrite (List.replicate b.length 0) b
      · rfl

/-- Witness for C1 at the concrete 5-byte (heap-stored) input
`[1, 2, 3, 4, 5]`. -/
theorem c1_create_roundtrip_witness :
    ([1, 2, 3, 4, 5] : List ℕ).length ≤ 255 ∧
    Value255.bytes ⟨5, [0, 0, 0, 0], [1, 2, 3, 4, 5]⟩ = [1, 2, 3, 4, 5] ∧
    Value255.size ⟨5, [0, 0, 0, 0], [1, 2, 3, 4, 5]⟩ = 5 := by
  refine ⟨by decide, ?_⟩
  have := c1_create_roundtrip [1, 2, 3, 4, 5] true
    ⟨5, [0, 0, 0, 0], [1, 2, 3, 4, 5]⟩ (by decide) (by decide) (by decide)
  simpa using this

/-- Claim C5: `Value255::create(data, size)` returns no value iff `size > 0`
with a null pointer, or the heap allocation it performs fails (possible
only when `size > 4`); `MutableValue255::set` returns `false` under exactly
those conditions (an allocation is performed only when `size > 4` and
`size` exceeds the recorded size), and every failed `set` leaves the
instance empty: size 0 and no heap allocation held. -/
theorem c5_failure_conditions (data : Option (List ℕ)) (sz : ℕ)
    (allocOk : Bool) (v : Value255) (hsz : sz ≤ 255) :
    (Value255.create data sz allocOk = none ↔
      (0 < sz ∧ data = none) ∨ (4 < sz ∧ allocOk = false)) ∧
    ((v.set data sz allocOk).1 = false ↔
      (0 < sz ∧ data = none) ∨ (4 < sz ∧ v.size_ < sz ∧ allocOk = false)) ∧
    ((v.set data sz allocOk).1 = false →
      (v.set data sz allocOk).2.size_ = 0 ∧
      (v.set data sz allocOk).2.heapBlock = []) := by
  have hset : ∀ (w : Value255),
      ((w.set data sz allocOk).1 = false ↔
        (0 < sz ∧ data = none) ∨ (4 < sz ∧ w.size_ < sz ∧ allocOk = false)) ∧
      ((w.set data sz allocOk).1 = false → (w.set data sz allocOk).2 = empty) := by
    intro w
    by_cases hnull : 0 < sz ∧ data = none
    · rw [set_invalid w data sz allocOk hnull.1 hnull.2]
      exact ⟨by simp [hnull], fun _ => rfl⟩
    · by_cases h4 : sz ≤ 4
      · rw [set_inline w data sz allocOk h4 (fun h1 h2 => hnull ⟨h1, h2⟩)]
        refine ⟨?_, by simp⟩
        constructor
        · intro h
          exact absurd h (by simp)
        · rintro (h | ⟨hgt, -⟩)
          · exact absurd h hnull
          · exact absurd hgt (by omega)
      · push_neg at h4
        have hdata : ∃ l, data = some l := by
          rcases data with _ | l
          · exact absurd ⟨by omega, rfl⟩ hnull
          · exact ⟨l, rfl⟩
        obtain ⟨l, hl⟩ := hdata
        subst hl
        by_cases hgt : w.size_ < sz
        · cases allocOk with
          | false =>
            rw [set_alloc_fail w (some l) sz h4 hgt]
            exact ⟨by simp [h4, hgt], fun _ => rfl⟩
          | true =>
            rw [set_alloc w l sz h4 hgt]
            refine ⟨?_, by simp⟩
            constructor
            · intro h
              exact absurd h (by simp)
            · rintro (h | ⟨-, -, h⟩)
              · rcases h with ⟨-, h⟩
                exact absurd h (by simp)
              · exact absurd h (by simp)
        · push_neg at hgt
          rw [set_reuse w l sz allocOk h4 hgt]
          refine ⟨?_, by simp⟩
          constructor
          · intro h
            exact absurd h (by simp)
          · rintro (h | ⟨-, hlt, -⟩)
            · rcases h with ⟨-, h⟩
              exact absurd h (by simp)
            · exact absurd hlt (by omega)
  refine ⟨?_, (hset v).1, fun hf => ?_⟩
  · rcases h1 : (Value255.set empty data sz allocOk).1 with _ | _
    · have hr := ((hset empty).1).mp h1
      constructor
      · intro _
        rcases hr with h | h
        · exact Or.inl h
        · exact Or.inr ⟨h.1, h.2.2⟩
      · intro _
        simp [Value255.create, h1]
    · constructor
      · intro hnone
        exfalso
        simp [Value255.create, h1] at hnone
      · intro hcond
        exfalso
        have hfalse : (Value255.set empty data sz allocOk).1 = false := by
          apply ((hset empty).1).mpr
          rcases hcond with h | h
          · exact Or.inl h
          · refine Or.inr ⟨h.1, ?_, h.2⟩
            simp only [empty]
            omega
        rw [h1] at hfalse
        exact absurd hfalse (by simp)
  · have h2 := (hset v).2 hf
    rw [h2]
    exact ⟨rfl, rfl⟩

/-- Witness for C5 at concrete inputs: a null pointer with positive size. -/
theorem c5_failure_conditions_witness :
    ((3 : ℕ) ≤ 255) ∧
    Value255.create none 3 true = none ∧
    (Value255.empty.set none 3 true).1 = false ∧
    (Value255.empty.set none 3 true).2.size_ = 0 := by
  have h := c5_failure_conditions none 3 true Value255.empty (by decide)
  refine ⟨by decide, h.1.mpr (Or.inl ⟨by decide, rfl⟩), ?_, ?_⟩
  · exact h.2.1.mpr (Or.inl ⟨by decide, rfl⟩)
  · exact (h.2.2 (h.2.1.mpr (Or.inl ⟨by decide, rfl⟩))).1

/-- Claim C9 (evidence): `Value255::str()` renders a two-byte payload
`0xAA 0xBB` as `"[ 0xAA 0xBB ]"`, but renders the empty value as `"[  ]"`
(two spaces between the brackets), not `"[ ]"` as the claim and the
formatter documentation in value255.hpp state. -/
theorem c9_str_rendering :
    Value255.str ⟨2, [0xAA, 0xBB, 0, 0], []⟩ = "[ 0xAA 0xBB ]" ∧
    Value255.str Value255.empty = "[  ]" ∧
    Value255.str Value255.empty ≠ "[ ]" := by
  refine ⟨by decide, by decide, by decide⟩

/-- Claim C7: over raw values 0–7, `shiftOf` is the sign extension of bit
field [2:1] (`00 → 0`, `01 → +1`, `10 → -2`, `11 → -1`), `coeffOf` is 5
when bit 0 is set and 1 otherwise, `nameOf` is the table
`x1, x5, x10, x50, x0.01, x0.05, x0.1, x0.5` indexed by raw value, and
`fromRaw` masks any input byte to its low 3 bits, always yielding a valid
(< 8) code. -/
theorem c7_resolution_decode (r : ℕ) (hr : r < 8) :
    Resolution.shiftOf r = List.getD [0, 1, -2, -1] ((r >>> 1) &&& 3) 0 ∧
    Resolution.coeffOf r = (if r % 2 = 1 then 5 else 1) ∧
    Resolution.nameOf r =
      List.getD ["x1", "x5", "x10", "x50", "x0.01", "x0.05", "x0.1", "x0.5"] r ("") ∧
    (∀ b : ℕ, b < 256 → Resolution.fromRaw b = b % 8 ∧ Resolution.fromRaw b < 8) := by
  refine ⟨?_, ?_, ?_, ?_⟩
  · interval_cases r <;> decide
  · interval_cases r <;> decide
  · interval_cases r <;> decide
  · intro b _
    have h8 : b &&& 7 = b % 8 := Nat.and_pow_two_sub_one_eq_mod b 3
    refine ⟨h8, ?_⟩
    unfold Resolution.fromRaw Resolution.RESOLUTION_KIND_MASK
    rw [show ((1 <<< 3 - 1 : ℕ)) = 7 from rfl, h8]
    omega

/-- Witness for C7 at raw value 5 (`X0_05`). -/
theorem c7_resolution_decode_witness :
    Resolution.shiftOf 5 = -2 ∧ Resolution.coeffOf 5 = 5 ∧
    Resolution.nameOf 5 = "x0.05" ∧ Resolution.fromRaw 13 = 5 := by
  have h := c7_resolution_decode 5 (by decide)
  refine ⟨by simpa using h.1, by simpa using h.2.1, by simpa using h.2.2.1, ?_⟩
  have := (h.2.2.2 13 (by decide)).1
  simpa using this

/-- Claim C3: the derived format is computed in this exact priority order:
both bounds empty → `String`; else empty minimum with non-empty maximum →
`BitSet`; else both of length 1 with minimum byte 0 and maximum byte 1 →
`Boolean`; otherwise `Numeric`.  In particular
`derive([0x00], [0x01]) = Boolean` and
`derive([0x00, 0x00], [0xFF, 0x00]) = Numeric`. -/
theorem c3_format_derivation (min max : Value255) :
    Format.fromValueRange min max =
      (if min.size_ = 0 ∧ max.size_ = 0 then .String
       else if min.size_ = 0 ∧ max.size_ ≠ 0 then .BitSet
       else if min.size_ = 1 ∧ max.size_ = 1 ∧
               min.bytes.headD 0 = 0 ∧ max.bytes.headD 0 = 1 then .Boolean
       else .Numeric) ∧
    Format.fromValueRange ⟨1, [0x00, 0, 0, 0], []⟩ ⟨1, [0x01, 0, 0, 0], []⟩ =
      .Boolean ∧
    Format.fromValueRange ⟨2, [0x00, 0x00, 0, 0], []⟩ ⟨2, [0xFF, 0x00, 0, 0], []⟩ =
      .Numeric := by
  refine ⟨?_, by decide, by decide⟩
  simp only [Format.fromValueRange, Format.BOOL_MIN, Format.BOOL_MAX, Value255.size]
  split_ifs <;> tauto

/-- The derived format depends only on the observable size and bytes of
the bounds. -/
theorem fromValueRange_congr (a b a2 b2 : Value255)
    (hsa : a.size_ = a2.size_) (hba : a.bytes = a2.bytes)
    (hsb : b.size_ = b2.size_) (hbb : b.bytes = b2.bytes) :
    Format.fromValueRange a b = Format.fromValueRange a2 b2 := by
  simp only [Format.fromValueRange, Value255.size, hsa, hba, hsb, hbb]

theorem toRaw_le (k : Format.Kind) : k.toRaw ≤ 3 := by
  cases k <;> decide

theorem land3_eq_mod (x : ℕ) : x &&& 3 = x % 4 := by
  have h := Nat.and_pow_two_sub_one_eq_mod x 2
  simpa using h

theorem land7_eq_mod (x : ℕ) : x &&& 7 = x % 8 := by
  have h := Nat.and_pow_two_sub_one_eq_mod x 3
  simpa using h

/-- Claim C8: for every constructed `Spec`, the packed control byte holds
the derived format in bits [1:0], the permission in bits [3:2], the
resolution in bits [6:4], and bit [7] reserved as 0. -/
theorem c8_control_byte (perm reso : ℕ) (init min max : Value255)
    (a₁ a₂ a₃ : Bool) (s : Spec)
    (hperm : perm ≤ 3) (hreso : reso ≤ 7)
    (hmin : min.WF) (hmax : max.WF)
    (hs : Spec.create perm reso init min max a₁ a₂ a₃ = some s) :
    s.frags % 4 = (Format.fromValueRange min max).toRaw ∧
    s.frags / 4 % 4 = perm ∧
    s.frags / 16 % 8 = reso ∧
    s.frags / 128 = 0 := by
  unfold Spec.create Spec.createFromOptions at hs
  rcases hi : init.clone a₁ with _ | ci <;> rw [hi] at hs
  · exact absurd hs (by simp)
  rcases hm : min.clone a₂ with _ | cmn <;> rw [hm] at hs
  · exact absurd hs (by simp)
  rcases hx : max.clone a₃ with _ | cmx <;> rw [hx] at hs
  · exact absurd hs (by simp)
  simp only [Option.some_inj] at hs
  have hmn := clone_eq_some min cmn a₂ hmin hm
  have hmx := clone_eq_some max cmx a₃ hmax hx
  have hfmt : Format.fromValueRange cmn cmx = Format.fromValueRange min max :=
    fromValueRange_congr cmn cmx min max hmn.1 hmn.2 hmx.1 hmx.2
  have hfrags : s.frags =
      Format.Kind.toRaw (Format.fromValueRange min max) + perm * 4 + reso * 16 := by
    rw [← hs]
    simp only [packFragments, hfmt]
    rw [land3_eq_mod, land3_eq_mod, land7_eq_mod]
    have h1 : Format.Kind.toRaw (Format.fromValueRange min max) % 4 =
        Format.Kind.toRaw (Format.fromValueRange min max) :=
      Nat.mod_eq_of_lt (by have := toRaw_le (Format.fromValueRange min max); omega)
    rw [h1, Nat.mod_eq_of_lt (by omega), Nat.mod_eq_of_lt (by omega)]
  have hf3 := toRaw_le (Format.fromValueRange min max)
  rw [hfrags]
  omega

/-- Witness for C8: a concrete boolean-bounds spec with permission 3 and
resolution 5 yields control byte 93 = 0b1011101: format Boolean (raw 1)
in bits [1:0], permission 3 in bits [3:2], resolution 5 in bits [6:4],
bit [7] clear. -/
theorem c8_control_byte_witness :
    (Spec.create 3 5 Value255.empty ⟨1, [0, 0, 0, 0], []⟩ ⟨1, [1, 0, 0, 0], []⟩
      true true true).isSome = true ∧
    (∀ s : Spec,
      Spec.create 3 5 Value255.empty ⟨1, [0, 0, 0, 0], []⟩ ⟨1, [1, 0, 0, 0], []⟩
        true true true = some s →
      s.frags % 4 = 1 ∧ s.frags / 4 % 4 = 3 ∧ s.frags / 16 % 8 = 5 ∧
      s.frags / 128 = 0) := by
  refine ⟨by decide, fun s hs => ?_⟩
  have h := c8_control_byte 3 5 Value255.empty ⟨1, [0, 0, 0, 0], []⟩
    ⟨1, [1, 0, 0, 0], []⟩ true true true s (by decide) (by decide)
    (by decide) (by decide) hs
  have hfmt : Format.fromValueRange ⟨1, [0, 0, 0, 0], []⟩ ⟨1, [1, 0, 0, 0], []⟩ =
      .Boolean := by decide
  rw [hfmt] at h
  exact h

/-- Claim C2: `isWithinRange` rejects a zero-length candidate
unconditionally; otherwise it dispatches on the format: `String` accepts
iff length ≤ 192, `BitSet` iff length ≤ 4, `Boolean` iff length = 1 with
the single byte exactly 0 or exactly 1, `Numeric` iff length ≤ 4 and the
decoded candidate lies between the decoded minimum and maximum (in
particular `false` whenever the length exceeds 4).  The verdict is always
a boolean. -/
theorem c2_is_within_range (s : Spec) (v : Value255) :
    (v.size_ = 0 → s.isWithinRange v = false) ∧
    (v.size_ ≠ 0 →
      (s.format = .String →
        (s.isWithinRange v = true ↔ v.size_ ≤ 192)) ∧
      (s.format = .BitSet →
        (s.isWithinRange v = true ↔ v.size_ ≤ 4)) ∧
      (s.format = .Boolean →
        (s.isWithinRange v = true ↔
          v.size_ = 1 ∧ (v.bytes.headD 0 = 0 ∨ v.bytes.headD 0 = 1))) ∧
      (s.format = .Numeric →
        (s.isWithinRange v = true ↔
          v.size_ ≤ 4 ∧
          Spec.decodeNumericValue s.minVal ≤ Spec.decodeNumericValue v ∧
          Spec.decodeNumericValue v ≤ Spec.decodeNumericValue s.maxVal)) ∧
      (s.format = .Numeric → 4 < v.size_ → s.isWithinRange v = false)) ∧
    (s.isWithinRange v = true ∨ s.isWithinRange v = false) := by
  refine ⟨fun h0 => ?_, fun h0 => ?_, ?_⟩
  · simp [Spec.isWithinRange, Value255.size, h0]
  · refine ⟨fun hf => ?_, fun hf => ?_, fun hf => ?_, fun hf => ?_, fun hf h4 => ?_⟩
    · simp [Spec.isWithinRange, Value255.size, h0, hf, MAX_STRING_SIZE]
    · simp [Spec.isWithinRange, Value255.size, h0, hf, MAX_BITSET_SIZE]
    · simp [Spec.isWithinRange, Value255.size, h0, hf, BOOL_SIZE, BOOL_FALSE,
        BOOL_TRUE]
    · simp only [Spec.isWithinRange, Value255.size, if_neg h0, hf]
      by_cases h4 : v.size_ ≤ 4
      · simp [h4, MAX_NUMERIC_SIZE]
      · simp only [MAX_NUMERIC_SIZE, if_neg h4]
        constructor
        · intro h
          exact absurd h (by simp)
        · intro h
          exact absurd h.1 h4
    · simp [Spec.isWithinRange, Value255.size, h0, hf, MAX_NUMERIC_SIZE]
      omega
  · rcases h : s.isWithinRange v with _ | _
    · exact Or.inr rfl
    · exact Or.inl rfl

/-- Witness for C2: a numeric spec with bounds `[0x00]`–`[0x0A]` accepts
`[0x05]` and rejects `[0x0B]` and the empty candidate. -/
theorem c2_is_within_range_witness :
    Spec.isWithinRange
      ⟨12, Value255.empty, ⟨1, [0, 0, 0, 0], []⟩, ⟨1, [10, 0, 0, 0], []⟩⟩
      ⟨1, [5, 0, 0, 0], []⟩ = true ∧
    Spec.isWithinRange
      ⟨12, Value255.empty, ⟨1, [0, 0, 0, 0], []⟩, ⟨1, [10, 0, 0, 0], []⟩⟩
      ⟨1, [11, 0, 0, 0], []⟩ = false ∧
    Spec.isWithinRange
      ⟨12, Value255.empty, ⟨1, [0, 0, 0, 0], []⟩, ⟨1, [10, 0, 0, 0], []⟩⟩
      Value255.empty = false := by
  have hspec := c2_is_within_range
    ⟨12, Value255.empty, ⟨1, [0, 0, 0, 0], []⟩, ⟨1, [10, 0, 0, 0], []⟩⟩
    ⟨1, [5, 0, 0, 0], []⟩
  have hempty := (c2_is_within_range
    ⟨12, Value255.empty, ⟨1, [0, 0, 0, 0], []⟩, ⟨1, [10, 0, 0, 0], []⟩⟩
    Value255.empty).1 rfl
  refine ⟨?_, by decide, hempty⟩
  have hfmt : Spec.format
      ⟨12, Value255.empty, ⟨1, [0, 0, 0, 0], []⟩, ⟨1, [10, 0, 0, 0], []⟩⟩ =
      .Numeric := by decide
  exact ((hspec.2.1 (by decide)).2.2.2.1 hfmt).mpr (by decide)

/-- The little-endian value of a byte list is bounded by `256 ^ length`. -/
theorem leVal_lt (l : List ℕ) (h : ∀ x ∈ l, x < 256) :
    Spec.leVal l < 256 ^ l.length := by
  induction l with
  | nil => simp [Spec.leVal]
  | cons b rest ih =>
    have hb : b < 256 := h b (by simp)
    have hr := ih (fun x hx => h x (by simp [hx]))
    have hpos : 1 ≤ 256 ^ rest.length := Nat.one_le_pow _ _ (by omega)
    have hmul : 256 * Spec.leVal rest ≤ 256 * (256 ^ rest.length - 1) :=
      Nat.mul_le_mul_left _ (by omega)
    simp only [Spec.leVal, List.length_cons, pow_succ]
    omega

theorem decode_eq_toInt32 (v : Value255) (h1 : v.size_ ≠ 0) (h2 : v.size_ ≤ 4) :
    Spec.decodeNumericValue v = Spec.toInt32 (Spec.leVal v.bytes) := by
  simp only [Spec.decodeNumericValue, MAX_NUMERIC_SIZE]
  rw [if_neg (by omega)]

/-- Claim C4: the numeric decode zero-pads: for 1–4 byte values the signed
32-bit accumulator is the two's-complement reading of the little-endian
byte pattern with unused high bytes zero (its unsigned residue mod `2^32`
is exactly the little-endian value); payloads of at most 3 bytes decode to
the non-negative little-endian value itself (a 1-byte `0xFF` decodes to
255, never -1); length 0 or length > 4 decodes to 0; and the `Numeric`
branch of `isWithinRange` compares exactly these decoded values. -/
theorem c4_numeric_decode (v : Value255) (s : Spec) (hWF : v.WF) :
    (1 ≤ v.size_ → v.size_ ≤ 4 →
      Spec.decodeNumericValue v % 2 ^ 32 = (Spec.leVal v.bytes : ℤ) ∧
      -(2 ^ 31) ≤ Spec.decodeNumericValue v ∧
      Spec.decodeNumericValue v < 2 ^ 31) ∧
    (v.size_ ≤ 3 →
      0 ≤ Spec.decodeNumericValue v ∧
      Spec.decodeNumericValue v = (Spec.leVal v.bytes : ℤ)) ∧
    Spec.decodeNumericValue ⟨1, [0xFF, 0, 0, 0], []⟩ = 255 ∧
    (v.size_ = 0 ∨ 4 < v.size_ → Spec.decodeNumericValue v = 0) ∧
    (s.format = .Numeric → 1 ≤ v.size_ → v.size_ ≤ 4 →
      (s.isWithinRange v = true ↔
        Spec.decodeNumericValue s.minVal ≤ Spec.decodeNumericValue v ∧
        Spec.decodeNumericValue v ≤ Spec.decodeNumericValue s.maxVal)) := by
  have hblen : v.bytes.length = v.size_ := WF.bytes_length v hWF
  have hbval : ∀ x ∈ v.bytes, x < 256 := WF.bytes_lt v hWF
  have hlt : Spec.leVal v.bytes < 256 ^ v.bytes.length := leVal_lt v.bytes hbval
  refine ⟨fun h1 h4 => ?_, fun h3 => ?_, by decide, fun h0 => ?_, fun hf h1 h4 => ?_⟩
  · rw [decode_eq_toInt32 v (by omega) h4]
    have hb32 : Spec.leVal v.bytes < 2 ^ 32 := by
      have hle : 256 ^ v.bytes.length ≤ 256 ^ 4 :=
        Nat.pow_le_pow_right (by omega) (by omega)
      calc Spec.leVal v.bytes < 256 ^ v.bytes.length := hlt
        _ ≤ 256 ^ 4 := hle
        _ = 2 ^ 32 := by norm_num
    unfold Spec.toInt32
    split_ifs with hlt31 <;>
      constructor <;>
      · push_cast
        omega
  · by_cases h0 : v.size_ = 0
    · have hbytes : v.bytes = [] := by
        simp [Value255.bytes, h0]
      rw [hbytes]
      simp [Spec.decodeNumericValue, h0, Spec.leVal]
    · rw [decode_eq_toInt32 v h0 (by omega)]
      have hb31 : Spec.leVal v.bytes < 2 ^ 31 := by
        have hle : 256 ^ v.bytes.length ≤ 256 ^ 3 :=
          Nat.pow_le_pow_right (by omega) (by omega)
        calc Spec.leVal v.bytes < 256 ^ v.bytes.length := hlt
          _ ≤ 256 ^ 3 := hle
          _ < 2 ^ 31 := by norm_num
      unfold Spec.toInt32
      rw [if_pos (by push_cast; omega)]
      constructor <;>
        · push_cast
          omega
  · simp [Spec.decodeNumericValue, MAX_NUMERIC_SIZE]
    omega
  · simp only [Spec.isWithinRange, Value255.size, if_neg (by omega : ¬v.size_ = 0),
      hf, MAX_NUMERIC_SIZE, if_pos h4]
    simp

/-- Witness for C4 at the 1-byte value `0xFF` (decodes to 255). -/
theorem c4_numeric_decode_witness :
    Value255.WF ⟨1, [0xFF, 0, 0, 0], []⟩ ∧
    Spec.decodeNumericValue ⟨1, [0xFF, 0, 0, 0], []⟩ % 2 ^ 32 = 255 ∧
    0 ≤ Spec.decodeNumericValue ⟨1, [0xFF, 0, 0, 0], []⟩ := by
  have h := c4_numeric_decode ⟨1, [0xFF, 0, 0, 0], []⟩
    ⟨0, Value255.empty, Value255.empty, Value255.empty⟩ (by decide)
  refine ⟨by decide, ?_, (h.2.1 (by decide)).1⟩
  have h1 := (h.1 (by decide) (by decide)).1
  rw [h1]
  decide

/-! ### Lemmas about the three-way byte comparison -/

theorem byteCmp_eq_lt {a b : ℕ} : byteCmp a b = .lt ↔ a < b := by
  unfold byteCmp
  split_ifs <;> simp <;> omega

theorem byteCmp_eq_gt {a b : ℕ} : byteCmp a b = .gt ↔ b < a := by
  unfold byteCmp
  split_ifs <;> simp <;> omega

theorem byteCmp_eq_eq {a b : ℕ} : byteCmp a b = .eq ↔ a = b := by
  unfold byteCmp
  split_ifs <;> simp <;> omega

theorem lexCmp_eq_eq (l₁ l₂ : List ℕ) : lexCmp l₁ l₂ = .eq ↔ l₁ = l₂ := by
  induction l₁ generalizing l₂ with
  | nil => cases l₂ <;> simp [lexCmp]
  | cons a as ih =>
    cases l₂ with
    | nil => simp [lexCmp]
    | cons b bs =>
      simp only [lexCmp]
      rcases h : byteCmp a b with _ | _ | _
      · have hab : a < b := byteCmp_eq_lt.mp h
        simp only [List.cons.injEq]
        constructor
        · intro hcontra
          exact absurd hcontra (by simp)
        · rintro ⟨rfl, -⟩
          omega
      · have hab : a = b := byteCmp_eq_eq.mp h
        simp [hab, ih]
      · have hab : b < a := byteCmp_eq_gt.mp h
        simp only [List.cons.injEq]
        constructor
        · intro hcontra
          exact absurd hcontra (by simp)
        · rintro ⟨rfl, -⟩
          omega

theorem lexCmp_swap (l₁ l₂ : List ℕ) : (lexCmp l₁ l₂).swap = lexCmp l₂ l₁ := by
  induction l₁ generalizing l₂ with
  | nil => cases l₂ <;> simp [lexCmp, Ordering.swap]
  | cons a as ih =>
    cases l₂ with
    | nil => simp [lexCmp, Ordering.swap]
    | cons b bs =>
      simp only [lexCmp]
      rcases h : byteCmp a b with _ | _ | _
      · have hba : byteCmp b a = .gt := byteCmp_eq_gt.mpr (byteCmp_eq_lt.mp h)
        simp [hba, Ordering.swap]
      · have hba : byteCmp b a = .eq := byteCmp_eq_eq.mpr (byteCmp_eq_eq.mp h).symm
        simp [hba, ih]
      · have hba : byteCmp b a = .lt := byteCmp_eq_lt.mpr (byteCmp_eq_gt.mp h)
        simp [hba, Ordering.swap]

theorem lexCmp_lt_iff_gt (l₁ l₂ : List ℕ) :
    lexCmp l₁ l₂ = .lt ↔ lexCmp l₂ l₁ = .gt := by
  rw [← lexCmp_swap l₁ l₂]
  cases lexCmp l₁ l₂ <;> simp [Ordering.swap]

theorem lexCmp_trans {a b c : List ℕ} (h₁ : lexCmp a b = .lt)
    (h₂ : lexCmp b c = .lt) : lexCmp a c = .lt := by
  induction a generalizing b c with
  | nil =>
    cases b with
    | nil => simp [lexCmp] at h₁
    | cons B bs =>
      cases c with
      | nil => simp [lexCmp] at h₂
      | cons C cs => simp [lexCmp]
  | cons A as ih =>
    cases b with
    | nil => simp [lexCmp] at h₁
    | cons B bs =>
      cases c with
      | nil => simp [lexCmp] at h₂
      | cons C cs =>
        simp only [lexCmp] at h₁ h₂ ⊢
        rcases hAB : byteCmp A B with _ | _ | _ <;> rw [hAB] at h₁
        · rcases hBC : byteCmp B C with _ | _ | _ <;> rw [hBC] at h₂
          · have hAC : byteCmp A C = .lt := byteCmp_eq_lt.mpr (by
              have hx := byteCmp_eq_lt.mp hAB
              have hy := byteCmp_eq_lt.mp hBC
              omega)
            rw [hAC]
          · have hAC : byteCmp A C = .lt := byteCmp_eq_lt.mpr (by
              have hx := byteCmp_eq_lt.mp hAB
              have hy := byteCmp_eq_eq.mp hBC
              omega)
            rw [hAC]
          · exact absurd h₂ (by simp)
        · rcases hBC : byteCmp B C with _ | _ | _ <;> rw [hBC] at h₂
          · have hAC : byteCmp A C = .lt := byteCmp_eq_lt.mpr (by
              have hx := byteCmp_eq_eq.mp hAB
              have hy := byteCmp_eq_lt.mp hBC
              omega)
            rw [hAC]
          · have hAC : byteCmp A C = .eq := byteCmp_eq_eq.mpr (by
              have hx := byteCmp_eq_eq.mp hAB
              have hy := byteCmp_eq_eq.mp hBC
              omega)
            rw [hAC]
            exact ih h₁ h₂
          · exact absurd h₂ (by simp)
        · exact absurd h₁ (by simp)

theorem cmp_eq_lexCmp_of_eq_size (a b : Value255) (hsz : a.size_ = b.size_)
    (h0 : a.size_ ≠ 0) : Value255.cmp a b = lexCmp a.bytes b.bytes := by
  unfold Value255.cmp
  rw [if_neg (by omega), if_neg (by omega), if_neg h0]
  rfl

/-- Claim C6: equality holds iff the sizes match and either the size is 0
or the payload bytes all match; the three-way comparison yields `lt` on
smaller size, `gt` on larger size, and otherwise the byte-lexicographic
comparison of the equal-length payloads; it is a strong total order
(reflexively `eq`, `eq` exactly on observationally equal values,
antisymmetric, transitive); and `[0x01] < [0x01, 0x00] < [0x01, 0x01]`. -/
theorem c6_equality_ordering (a b c : Value255) :
    (Value255.beq a b = true ↔
      a.size_ = b.size_ ∧ (a.size_ = 0 ∨ a.bytes = b.bytes)) ∧
    (a.size_ < b.size_ → Value255.cmp a b = .lt) ∧
    (b.size_ < a.size_ → Value255.cmp a b = .gt) ∧
    (a.size_ = b.size_ → a.size_ ≠ 0 →
      Value255.cmp a b = lexCmp a.bytes b.bytes) ∧
    Value255.cmp a a = .eq ∧
    (Value255.cmp a b = .eq ↔ a.size_ = b.size_ ∧ a.bytes = b.bytes) ∧
    (Value255.cmp a b = .lt ↔ Value255.cmp b a = .gt) ∧
    (Value255.cmp a b = .lt → Value255.cmp b c = .lt → Value255.cmp a c = .lt) ∧
    Value255.cmp ⟨1, [0x01, 0, 0, 0], []⟩ ⟨2, [0x01, 0x00, 0, 0], []⟩ = .lt ∧
    Value255.cmp ⟨2, [0x01, 0x00, 0, 0], []⟩ ⟨2, [0x01, 0x01, 0, 0], []⟩ = .lt := by
  have hcmp_eq : ∀ x y : Value255,
      Value255.cmp x y = .eq ↔ x.size_ = y.size_ ∧ x.bytes = y.bytes := by
    intro x y
    by_cases hlt : x.size_ < y.size_
    · unfold Value255.cmp
      rw [if_pos hlt]
      simp
      omega
    · by_cases hgt : y.size_ < x.size_
      · unfold Value255.cmp
        rw [if_neg hlt, if_pos hgt]
        simp
        omega
      · have hsz : x.size_ = y.size_ := by omega
        by_cases h0 : x.size_ = 0
        · unfold Value255.cmp
          rw [if_neg hlt, if_neg hgt, if_pos h0]
          simp only [true_iff]
          refine ⟨hsz, ?_⟩
          unfold Value255.bytes
          rw [h0, ← hsz, h0]
          simp
        · rw [cmp_eq_lexCmp_of_eq_size x y hsz h0, lexCmp_eq_eq]
          simp [hsz]
  have hcmp_swap : ∀ x y : Value255,
      (Value255.cmp x y).swap = Value255.cmp y x := by
    intro x y
    by_cases hlt : x.size_ < y.size_
    · unfold Value255.cmp
      rw [if_pos hlt, if_neg (by omega), if_pos hlt]
      rfl
    · by_cases hgt : y.size_ < x.size_
      · unfold Value255.cmp
        rw [if_neg hlt, if_pos hgt, if_pos hgt]
        rfl
      · have hsz : x.size_ = y.size_ := by omega
        by_cases h0 : x.size_ = 0
        · unfold Value255.cmp
          rw [if_neg hlt, if_neg hgt, if_pos h0, if_neg (by omega),
            if_neg (by omega), if_pos (by omega)]
          rfl
        · rw [cmp_eq_lexCmp_of_eq_size x y hsz h0,
            cmp_eq_lexCmp_of_eq_size y x hsz.symm (by omega), lexCmp_swap]
  refine ⟨?_, fun hlt => ?_, fun hgt => ?_,
    cmp_eq_lexCmp_of_eq_size a b, ?_, hcmp_eq a b, ?_, fun h₁ h₂ => ?_,
    by decide, by decide⟩
  · unfold Value255.beq
    by_cases hsz : a.size_ = b.size_
    · by_cases h0 : a.size_ = 0
      · rw [if_neg (by omega), if_pos h0]
        constructor
        · intro _
          exact ⟨hsz, Or.inl h0⟩
        · intro _
          rfl
      · rw [if_neg (by omega), if_neg h0]
        unfold Value255.bytes
        rw [← hsz]
        constructor
        · intro h
          exact ⟨rfl, Or.inr (by simpa using h)⟩
        · rintro ⟨-, h | h⟩
          · exact absurd h h0
          · simpa using h
    · rw [if_pos hsz]
      simp
      omega
  · unfold Value255.cmp
    rw [if_pos hlt]
  · unfold Value255.cmp
    rw [if_neg (by omega), if_pos hgt]
  · exact (hcmp_eq a a).mpr ⟨rfl, rfl⟩
  · rw [← hcmp_swap a b]
    cases Value255.cmp a b <;> simp [Ordering.swap]
  · by_cases hab : a.size_ < b.size_ <;> by_cases hbc : b.size_ < c.size_
    · unfold Value255.cmp
      rw [if_pos (by omega)]
    · have hcb : ¬ b.size_ < c.size_ := hbc
      -- b.size_ ≥ c.size_; from h₂, cmp b c = lt forces b.size_ = c.size_
      by_cases hgt : c.size_ < b.size_
      · exfalso
        unfold Value255.cmp at h₂
        rw [if_neg hcb, if_pos hgt] at h₂
        exact absurd h₂ (by simp)
      · have : b.size_ = c.size_ := by omega
        unfold Value255.cmp
        rw [if_pos (by omega)]
    · by_cases hba : b.size_ < a.size_
      · exfalso
        unfold Value255.cmp at h₁
        rw [if_neg hab, if_pos hba] at h₁
        exact absurd h₁ (by simp)
      · have : a.size_ = b.size_ := by omega
        unfold Value255.cmp
        rw [if_pos (by omega)]
    · -- no strict size drops anywhere; sizes must be equal throughout
      by_cases hba : b.size_ < a.size_
      · exfalso
        unfold Value255.cmp at h₁
        rw [if_neg hab, if_pos hba] at h₁
        exact absurd h₁ (by simp)
      · by_cases hcb : c.size_ < b.size_
        · exfalso
          unfold Value255.cmp at h₂
          rw [if_neg hbc, if_pos hcb] at h₂
          exact absurd h₂ (by simp)
        · have hsab : a.size_ = b.size_ := by omega
          have hsbc : b.size_ = c.size_ := by omega
          by_cases h0 : a.size_ = 0
          · exfalso
            unfold Value255.cmp at h₁
            rw [if_neg hab, if_neg hba, if_pos h0] at h₁
            exact absurd h₁ (by simp)
          · rw [cmp_eq_lexCmp_of_eq_size a b hsab h0] at h₁
            rw [cmp_eq_lexCmp_of_eq_size b c hsbc (by omega)] at h₂
            rw [cmp_eq_lexCmp_of_eq_size a c (by omega) h0]
            exact lexCmp_trans h₁ h₂

/-- Witness for C6 at the concrete chain
`[0x01] < [0x01, 0x00] < [0x01, 0x01]`. -/
theorem c6_equality_ordering_witness :
    Value255.cmp ⟨1, [0x01, 0, 0, 0], []⟩ ⟨2, [0x01, 0x00, 0, 0], []⟩ = .lt ∧
    Value255.cmp ⟨1, [0x01, 0, 0, 0], []⟩ ⟨2, [0x01, 0x01, 0, 0], []⟩ = .lt ∧
    Value255.beq ⟨2, [0x01, 0x00, 0, 0], []⟩ ⟨2, [0x01, 0x00, 9, 9], []⟩ = true := by
  have h := c6_equality_ordering ⟨1, [0x01, 0, 0, 0], []⟩
    ⟨2, [0x01, 0x00, 0, 0], []⟩ ⟨2, [0x01, 0x01, 0, 0], []⟩
  refine ⟨h.2.1 (by decide), ?_, ?_⟩
  · exact (h.2.2.2.2.2.2.2.1 (h.2.1 (by decide)) (by decide))
  · have h2 := c6_equality_ordering ⟨2, [0x01, 0x00, 0, 0], []⟩
      ⟨2, [0x01, 0x00, 9, 9], []⟩ ⟨2, [0x01, 0x00, 9, 9], []⟩
    exact h2.1.mpr ⟨rfl, Or.inr (by decide)⟩

/-! ### Heap-capacity invariant preservation (C10) -/

theorem HeapInv.empty : Value255.HeapInv Value255.empty := by
  intro h
  simp [Value255.empty] at h

theorem HeapInv.set_preserved (v : Value255) (data : Option (List ℕ)) (sz : ℕ)
    (allocOk : Bool) (h : v.HeapInv) : (v.set data sz allocOk).2.HeapInv := by
  by_cases hnull : 0 < sz ∧ data = none
  · rw [set_invalid v data sz allocOk hnull.1 hnull.2]
    exact HeapInv.empty
  · by_cases h4 : sz ≤ 4
    · rw [set_inline v data sz allocOk h4 (fun h1 h2 => hnull ⟨h1, h2⟩)]
      intro hgt
      simp [INLINE_SIZE] at hgt
      omega
    · push_neg at h4
      have hdata : ∃ l, data = some l := by
        rcases data with _ | l
        · exact absurd ⟨by omega, rfl⟩ hnull
        · exact ⟨l, rfl⟩
      obtain ⟨l, hl⟩ := hdata
      subst hl
      by_cases hgt : v.size_ < sz
      · cases allocOk with
        | false =>
          rw [set_alloc_fail v (some l) sz h4 hgt]
          exact HeapInv.empty
        | true =>
          rw [set_alloc v l sz h4 hgt]
          intro _
          simp [memWrite_length]
      · push_neg at hgt
        have hcap : sz ≤ v.heapBlock.length := by
          have hx := h (by unfold INLINE_SIZE; omega)
          omega
        rw [set_reuse v l sz allocOk h4 hgt]
        intro _
        simp [memWrite_length]
        omega

/-- Claim C10: the heap-capacity invariant — whenever the value is
heap-backed, the owned block's capacity is at least the recorded size —
is preserved by every sequence of `set` calls, successful or failed;
consequently the reuse branch of `set` (`size > 4` and not above the
recorded size) writes `size` bytes into a block of capacity at least
`size` (never past the end of the allocation) and leaves the capacity
unchanged. -/
theorem c10_heap_capacity_invariant (v : Value255) (hinv : v.HeapInv) :
    (∀ ops : List (Option (List ℕ) × ℕ × Bool),
      (Value255.setSeq v ops).HeapInv) ∧
    (∀ (l : List ℕ) (sz : ℕ) (allocOk : Bool),
      4 < sz → sz ≤ v.size_ →
      sz ≤ v.heapBlock.length ∧
      (v.set (some l) sz allocOk).2.heapBlock.length = v.heapBlock.length) := by
  constructor
  · intro ops
    induction ops generalizing v with
    | nil => exact hinv
    | cons op rest ih =>
      show Value255.HeapInv
        (Value255.setSeq (v.set op.1 op.2.1 op.2.2).2 rest)
      exact ih _ (HeapInv.set_preserved v op.1 op.2.1 op.2.2 hinv)
  · intro l sz allocOk h4 hle
    have hcap : sz ≤ v.heapBlock.length := by
      have hx := hinv (by unfold INLINE_SIZE; omega)
      omega
    refine ⟨hcap, ?_⟩
    rw [set_reuse v l sz allocOk h4 hle]
    simp [memWrite_length]
    omega

/-- Witness for C10: a 5-byte heap-backed value; a failed oversized `set`
followed by a successful reusing `set` preserves the invariant, and the
reuse branch stays within the original 5-byte capacity. -/
theorem c10_heap_capacity_invariant_witness :
    Value255.HeapInv
      (Value255.setSeq ⟨5, [0, 0, 0, 0], [1, 2, 3, 4, 5]⟩
        [(none, 9, true), (some [7, 7, 7, 7, 7], 5, false)]) ∧
    5 ≤ ([1, 2, 3, 4, 5] : List ℕ).length ∧
    ((⟨5, [0, 0, 0, 0], [1, 2, 3, 4, 5]⟩ : Value255).set
      (some [7, 7, 7, 7, 7]) 5 false).2.heapBlock.length = 5 := by
  have h := c10_heap_capacity_invariant ⟨5, [0, 0, 0, 0], [1, 2, 3, 4, 5]⟩
    (by decide)
  refine ⟨h.1 [(none, 9, true), (some [7, 7, 7, 7, 7], 5, false)], by decide, ?_⟩
  exact (h.2 [7, 7, 7, 7, 7] 5 false (by decide) (by decide)).2

end TrialCpp
